import Mathlib

/-!
Verification of the PlotJuggler streaming time-series dataflow engine.

Shallow embedding of the application sources:
  * `transforms/time_window_transform.cpp` (TimeWindowTransform::calculate)
  * `point_series_xy.cpp`                  (PointSeriesXY::updateCache)
  * `mainwindow.cpp`                       (undo/redo, playback loop,
                                            deletion cascade, bulk transform
                                            evaluation, topological sort of
                                            custom equations)

Timestamps and sample values (C++ `double`) are modelled as exact rationals;
all algorithms below use only comparisons and additions on them.
-/

namespace PlotJuggler

/-- Point mirrors `PlotData::Point`: `x` is the timestamp, `y` the value. -/
structure Point where
  x : ℚ
  y : ℚ
deriving DecidableEq, Repr

/-- Machine epsilon of an IEEE double (`std::numeric_limits<double>::epsilon()`),
the tolerance used by `PointSeriesXY::updateCache` on the time axis. -/
def EPS : ℚ := 1 / 2 ^ 52

/-- Index of the first point whose time is `≥ x` (C++ `std::lower_bound` on
the sample vector); equals the length when every point is earlier. -/
def lowerBoundIdx (pts : List Point) (x : ℚ) : Nat :=
  match pts with
  | [] => 0
  | p :: rest => if x ≤ p.x then 0 else lowerBoundIdx rest x + 1

/-- Modelled from the spec: `PlotData::getIndexFromX` is declared in the
PlotJuggler base library, which is not among these sources.  Per the spec it
is a nearest-index lookup: binary search for the first index whose time is
`≥ x`, stepped to the neighbour below when that one is strictly closer,
clamped into range, and `-1` on an empty series. -/
def getIndexFromX (pts : List Point) (x : ℚ) : Int :=
  match pts with
  | [] => -1
  | q :: rest =>
    let j := lowerBoundIdx (q :: rest) x
    if (q :: rest).length ≤ j then ((q :: rest).length : Int) - 1
    else if 0 < j ∧
        x - ((q :: rest).getD (j - 1) ⟨0, 0⟩).x < ((q :: rest).getD j ⟨0, 0⟩).x - x then
      (j : Int) - 1
    else (j : Int)

/-- Inner loop of `TimeWindowTransform::calculate`: walk forward from the
seek position, break at the first point past `upper`, push points whose time
is at least `lower`. -/
def windowScan (lower upper : ℚ) : List Point → List Point
  | [] => []
  | p :: rest =>
    if upper < p.x then []
    else if lower ≤ p.x then p :: windowScan lower upper rest
    else windowScan lower upper rest

namespace TimeWindowTransform

/-- TimeWindowTransform::calculate: unconditionally clears the destination
(`dst` is the destination content before the call and is discarded), then,
if the source is non-empty, rebuilds the destination by scanning the source
from one index before the `getIndexFromX` hint, keeping the points inside
`[tracker - prevSec, tracker + nextSec]`. -/
def calculate (src dst : List Point) (tracker prevSec nextSec : ℚ) : List Point :=
  let _ := dst
  if src = [] then []
  else
    let lower := tracker - prevSec
    let upper := tracker + nextSec
    let hint := getIndexFromX src lower
    let start : Nat := if 1 < hint then (hint - 1).toNat else 0
    windowScan lower upper (src.drop start)

end TimeWindowTransform

/-! Helper lemmas about `lowerBoundIdx` and `windowScan`. -/

theorem lowerBoundIdx_le_length (pts : List Point) (x : ℚ) :
    lowerBoundIdx pts x ≤ pts.length := by
  induction pts with
  | nil => simp [lowerBoundIdx]
  | cons p rest ih =>
    simp only [lowerBoundIdx, List.length_cons]
    split <;> omega

theorem mem_take_lowerBoundIdx_lt (pts : List Point) (x : ℚ) :
    ∀ p ∈ pts.take (lowerBoundIdx pts x), p.x < x := by
  induction pts with
  | nil => simp
  | cons q rest ih =>
    simp only [lowerBoundIdx]
    by_cases hq : x ≤ q.x
    · simp [hq]
    · rw [if_neg hq]
      intro p hp
      rw [List.take_succ_cons, List.mem_cons] at hp
      rcases hp with h | h
      · subst h; exact lt_of_not_le hq
      · exact ih p h

theorem windowScan_eq_filter (lower upper : ℚ) (pts : List Point)
    (hs : pts.Pairwise (fun a b => a.x ≤ b.x)) :
    windowScan lower upper pts
      = pts.filter (fun p => lower ≤ p.x ∧ p.x ≤ upper) := by
  induction pts with
  | nil => rfl
  | cons p rest ih =>
    rcases List.pairwise_cons.mp hs with ⟨hhead, htail⟩
    simp only [windowScan]
    by_cases hup : upper < p.x
    · rw [if_pos hup]
      have hrest : rest.filter (fun p => lower ≤ p.x ∧ p.x ≤ upper) = [] := by
        rw [List.filter_eq_nil_iff]
        intro q hq
        have := hhead q hq
        simp only [decide_eq_true_eq, not_and]
        intro _
        linarith
      rw [List.filter_cons_of_neg, hrest]
      simp only [decide_eq_true_eq, not_and]
      intro _
      linarith
    · rw [if_neg hup]
      by_cases hlo : lower ≤ p.x
      · rw [if_pos hlo, List.filter_cons_of_pos, ih htail]
        simp only [decide_eq_true_eq]
        constructor
        · exact hlo
        · linarith
      · rw [if_neg hlo, List.filter_cons_of_neg, ih htail]
        simp only [decide_eq_true_eq, not_and]
        intro h
        exact absurd h hlo

theorem filter_window_drop (lower upper : ℚ) (pts : List Point) (k : Nat)
    (hk : ∀ p ∈ pts.take k, p.x < lower) :
    (pts.drop k).filter (fun p => lower ≤ p.x ∧ p.x ≤ upper)
      = pts.filter (fun p => lower ≤ p.x ∧ p.x ≤ upper) := by
  conv_rhs => rw [← List.take_append_drop k pts]
  rw [List.filter_append]
  have : (pts.take k).filter (fun p => lower ≤ p.x ∧ p.x ≤ upper) = [] := by
    rw [List.filter_eq_nil_iff]
    intro q hq
    have := hk q hq
    simp only [decide_eq_true_eq, not_and]
    intro h
    linarith
  rw [this, List.nil_append]

/-- Start index chosen by `calculate` never passes the first in-window point. -/
theorem calculate_start_le (src : List Point) (lower : ℚ) (hne : src ≠ []) :
    (if 1 < getIndexFromX src lower
       then ((getIndexFromX src lower) - 1).toNat else 0)
      ≤ lowerBoundIdx src lower := by
  have hlen := lowerBoundIdx_le_length src lower
  cases src with
  | nil => exact absurd rfl hne
  | cons q rest =>
    simp only [getIndexFromX]
    split
    · -- lower bound ran off the end: j = length
      rename_i h
      simp only [List.length_cons] at h hlen ⊢
      split <;> omega
    · rename_i h
      split
      · -- nearest neighbour is one below the lower bound
        split <;> omega
      · split <;> omega

/-! Model of `PointSeriesXY::updateCache` (point_series_xy.cpp). -/

/-- Error raised by `PointSeriesXY::updateCache`, mirroring the C++
`std::runtime_error` thrown when the X and Y series disagree on a timestamp. -/
inductive CacheError where
  | axisMismatch
deriving DecidableEq, Repr

/-- Lower window bound check; `none` models the `std::numeric_limits::lowest`
sentinel assigned to `t_low` when `_windowed` is false. -/
def belowLo : Option ℚ → ℚ → Bool
  | none, _ => false
  | some lo, t => decide (t < lo)

/-- Upper window bound check; `none` models the `std::numeric_limits::max`
sentinel assigned to `t_high` when `_windowed` is false. -/
def aboveHi : Option ℚ → ℚ → Bool
  | none, _ => false
  | some hi, t => decide (hi < t)

/-- Loop of `PointSeriesXY::updateCache` over the zipped X/Y samples: abort
with the axis error when the two timestamps differ by more than `EPS`, break
past the upper bound, skip below the lower bound, otherwise emit the
`(x-value, y-value)` pair. -/
def xyScan (lo hi : Option ℚ) : List (Point × Point) → Except CacheError (List Point)
  | [] => .ok []
  | (px, py) :: rest =>
    if EPS < |px.x - py.x| then .error .axisMismatch
    else if aboveHi hi px.x then .ok []
    else if belowLo lo px.x then xyScan lo hi rest
    else do
      let r ← xyScan lo hi rest
      return (⟨px.y, py.y⟩ : Point) :: r

namespace PointSeriesXY

/-- Lower bound `t_low` of `updateCache`. -/
def loOf (windowed : Bool) (tracker prevSec : ℚ) : Option ℚ :=
  if windowed then some (tracker - prevSec) else none

/-- Upper bound `t_high` of `updateCache`. -/
def hiOf (windowed : Bool) (tracker nextSec : ℚ) : Option ℚ :=
  if windowed then some (tracker + nextSec) else none

/-- Index pairs actually visited by the `updateCache` loop: the first
`min |X| |Y|` samples of each series, zipped, starting one index before the
`getIndexFromX` hint when windowed. -/
def scannedPairs (xs ys : List Point) (windowed : Bool)
    (tracker prevSec : ℚ) : List (Point × Point) :=
  let dataSize := min xs.length ys.length
  let start : Nat :=
    if windowed then
      let hint := getIndexFromX xs (tracker - prevSec)
      if 1 < hint then (hint - 1).toNat else 0
    else 0
  ((xs.take dataSize).zip (ys.take dataSize)).drop start

/-- PointSeriesXY::updateCache: clears the cached curve, pairs the X and Y
series index-by-index over the first `min |X| |Y|` samples and, when
`windowed`, restricts to `[tracker - prevSec, tracker + nextSec]`; returns
the rebuilt cache or the axis-mismatch error. -/
def updateCache (xs ys : List Point) (windowed : Bool)
    (tracker prevSec nextSec : ℚ) : Except CacheError (List Point) :=
  if min xs.length ys.length = 0 then .ok []
  else
    xyScan (loOf windowed tracker prevSec) (hiOf windowed tracker nextSec)
      (scannedPairs xs ys windowed tracker prevSec)

theorem updateCache_eq_xyScan (xs ys : List Point) (windowed : Bool)
    (tracker prevSec nextSec : ℚ) :
    updateCache xs ys windowed tracker prevSec nextSec
      = xyScan (loOf windowed tracker prevSec) (hiOf windowed tracker nextSec)
          (scannedPairs xs ys windowed tracker prevSec) := by
  unfold updateCache
  split
  · rename_i h
    have hzip : (xs.take (min xs.length ys.length)).zip
        (ys.take (min xs.length ys.length)) = [] := by
      rcases Nat.min_eq_zero_iff.mp h with h0 | h0 <;>
        simp [List.eq_nil_of_length_eq_zero h0]
    rw [scannedPairs, hzip]
    simp [xyScan]
  · rfl

end PointSeriesXY

/-- Default sample pair used with `List.getD` in index-based statements. -/
def dfltPair : Point × Point := (⟨0, 0⟩, ⟨0, 0⟩)

theorem xyScan_error_at (lo hi : Option ℚ) :
    ∀ (L : List (Point × Point)) (k : Nat), k < L.length →
      EPS < |(L.getD k dfltPair).1.x - (L.getD k dfltPair).2.x| →
      (∀ m, m < k → |(L.getD m dfltPair).1.x - (L.getD m dfltPair).2.x| ≤ EPS ∧
        aboveHi hi (L.getD m dfltPair).1.x = false) →
      xyScan lo hi L = .error .axisMismatch := by
  intro L
  induction L with
  | nil => intro k hk; simp at hk
  | cons pr rest ih =>
    intro k hk hmis hpre
    obtain ⟨px, py⟩ := pr
    cases k with
    | zero =>
      simp only [List.getD_cons_zero] at hmis
      simp [xyScan, hmis]
    | succ k =>
      have hhead := hpre 0 (Nat.succ_pos k)
      simp only [List.getD_cons_zero] at hhead
      simp only [List.getD_cons_succ] at hmis
      have htail : xyScan lo hi rest = .error .axisMismatch := by
        apply ih k (by simpa using hk) hmis
        intro m hm
        have := hpre (m + 1) (by omega)
        simpa using this
      simp only [xyScan, if_neg (not_lt.mpr hhead.1), hhead.2, Bool.false_eq_true,
        if_false, htail]
      split <;> rfl

theorem xyScan_ok_of_aligned (lo hi : Option ℚ) :
    ∀ L : List (Point × Point),
      (∀ pr ∈ L, |pr.1.x - pr.2.x| ≤ EPS) →
      ∃ r, xyScan lo hi L = .ok r ∧ r.length ≤ L.length := by
  intro L
  induction L with
  | nil => exact fun _ => ⟨[], rfl, Nat.le_refl 0⟩
  | cons pr rest ih =>
    intro hal
    obtain ⟨px, py⟩ := pr
    have hhead := hal (px, py) (List.mem_cons_self _ _)
    obtain ⟨r, hr, hlen⟩ := ih fun q hq => hal q (List.mem_cons_of_mem _ hq)
    simp only [xyScan, if_neg (not_lt.mpr hhead)]
    by_cases hup : aboveHi hi px.x
    · exact ⟨[], by simp [hup], Nat.zero_le _⟩
    · simp only [hup, Bool.false_eq_true, if_false]
      by_cases hlo : belowLo lo px.x
      · exact ⟨r, by simp [hlo, hr], by simpa using Nat.le_succ_of_le hlen⟩
      · refine ⟨⟨px.y, py.y⟩ :: r, ?_, by simpa using hlen⟩
        simp [hlo, hr, Except.bind]

theorem scannedPairs_length_le (xs ys : List Point) (w : Bool) (t p : ℚ) :
    (PointSeriesXY.scannedPairs xs ys w t p).length ≤ min xs.length ys.length := by
  simp only [PointSeriesXY.scannedPairs, List.length_drop, List.length_zip,
    List.length_take]
  omega

/-- C6: during the XY cache rebuild, if the scan reaches an index where the
X-series time and the Y-series time differ by more than machine epsilon
(earlier scanned indices aligned and not past the upper bound), the rebuild
fails with the axis-misalignment error. -/
theorem C6_axis_mismatch_aborts (xs ys : List Point) (w : Bool)
    (tracker prevSec nextSec : ℚ) (k : Nat) (L : List (Point × Point))
    (hL : L = PointSeriesXY.scannedPairs xs ys w tracker prevSec)
    (hk : k < L.length)
    (hmis : EPS < |(L.getD k dfltPair).1.x - (L.getD k dfltPair).2.x|)
    (hpre : ∀ m, m < k →
      |(L.getD m dfltPair).1.x - (L.getD m dfltPair).2.x| ≤ EPS ∧
      aboveHi (PointSeriesXY.hiOf w tracker nextSec) (L.getD m dfltPair).1.x = false) :
    PointSeriesXY.updateCache xs ys w tracker prevSec nextSec
      = .error .axisMismatch := by
  rw [PointSeriesXY.updateCache_eq_xyScan, ← hL]
  exact xyScan_error_at _ _ L k hk hmis hpre

/-- Witness for C6 at the example of the spec: second index times 2 vs 1. -/
theorem C6_axis_mismatch_aborts_witness :
    PointSeriesXY.updateCache [⟨0, 1⟩, ⟨2, 2⟩] [⟨0, 10⟩, ⟨1, 20⟩] false 0 0 0
      = .error .axisMismatch := by
  refine C6_axis_mismatch_aborts _ _ _ _ _ _ 1
    [(⟨0, 1⟩, ⟨0, 10⟩), (⟨2, 2⟩, ⟨1, 20⟩)] ?_ (by norm_num) ?_ ?_
  · norm_num [PointSeriesXY.scannedPairs]
  · norm_num [dfltPair, EPS]
  · intro m hm
    interval_cases m
    norm_num [dfltPair, EPS, aboveHi, PointSeriesXY.hiOf]

/-- C7: the windowed XY recomputation on the aligned three-point series with
tracker 1 and window 1/1 pairs X and Y values index-by-index and caches
exactly the three points (1,10), (2,20), (3,30). -/
theorem C7_xy_window_pairs :
    PointSeriesXY.updateCache [⟨0, 1⟩, ⟨1, 2⟩, ⟨2, 3⟩] [⟨0, 10⟩, ⟨1, 20⟩, ⟨2, 30⟩]
        true 1 1 1 = .ok [⟨1, 10⟩, ⟨2, 20⟩, ⟨3, 30⟩] := by
  norm_num [PointSeriesXY.updateCache, PointSeriesXY.scannedPairs,
    PointSeriesXY.loOf, PointSeriesXY.hiOf, getIndexFromX, lowerBoundIdx, xyScan,
    belowLo, aboveHi, EPS, Except.bind]

/-- C10: when the X and Y series have different lengths (or not), only the
first `min |X| |Y|` index pairs are considered: if those are time-aligned the
rebuild succeeds with no error and the cached curve holds at most
`min |X| |Y|` points, the trailing points of the longer series being ignored. -/
theorem C10_min_length_truncation (xs ys : List Point) (w : Bool)
    (tracker prevSec nextSec : ℚ)
    (hal : ∀ i, i < min xs.length ys.length →
      |(xs.getD i ⟨0, 0⟩).x - (ys.getD i ⟨0, 0⟩).x| ≤ EPS) :
    ∃ r, PointSeriesXY.updateCache xs ys w tracker prevSec nextSec = .ok r ∧
      r.length ≤ min xs.length ys.length := by
  rw [PointSeriesXY.updateCache_eq_xyScan]
  have hsub : ∀ pr ∈ PointSeriesXY.scannedPairs xs ys w tracker prevSec,
      |pr.1.x - pr.2.x| ≤ EPS := by
    intro pr hpr
    simp only [PointSeriesXY.scannedPairs] at hpr
    have hmem := List.drop_subset _ _ hpr
    rw [List.mem_iff_getElem] at hmem
    obtain ⟨i, hi, heq⟩ := hmem
    have hilt : i < min xs.length ys.length := by
      simp only [List.length_zip, List.length_take] at hi
      omega
    have hix : i < xs.length := lt_of_lt_of_le hilt (Nat.min_le_left _ _)
    have hiy : i < ys.length := lt_of_lt_of_le hilt (Nat.min_le_right _ _)
    have hx : pr.1 = xs.getD i ⟨0, 0⟩ := by
      rw [← heq]
      rw [List.getElem_zip]
      simp only
      rw [List.getElem_take, List.getD_eq_getElem xs _ hix]
    have hy : pr.2 = ys.getD i ⟨0, 0⟩ := by
      rw [← heq]
      rw [List.getElem_zip]
      simp only
      rw [List.getElem_take, List.getD_eq_getElem ys _ hiy]
    rw [hx, hy]
    exact hal i hilt
  obtain ⟨r, hr, hlen⟩ := xyScan_ok_of_aligned _ _ _ hsub
  exact ⟨r, hr, le_trans hlen (scannedPairs_length_le xs ys w tracker prevSec)⟩

/-- Witness for C10: X has three samples, Y only two; the rebuild succeeds
and keeps at most two points. -/
theorem C10_min_length_truncation_witness :
    ∃ r, PointSeriesXY.updateCache [⟨0, 1⟩, ⟨1, 2⟩, ⟨2, 3⟩] [⟨0, 10⟩, ⟨1, 20⟩]
        false 0 0 0 = .ok r ∧ r.length ≤ min 3 2 :=
  C10_min_length_truncation _ _ _ _ _ _ (by
    intro i hi
    norm_num at hi
    interval_cases i <;> norm_num [EPS])

/-- C1: with a registered non-empty source whose times are non-decreasing and
a registered destination, `TimeWindowTransform::calculate` clears the
destination and rebuilds it to hold exactly the source points with
`tracker - prevSec ≤ time ≤ tracker + nextSec`, in source order; the
walk-back from the `getIndexFromX` hint misses no in-window point. -/
theorem C1_time_window_rebuild (src dst : List Point) (tracker prevSec nextSec : ℚ)
    (hs : src.Pairwise (fun a b => a.x ≤ b.x)) :
    TimeWindowTransform.calculate src dst tracker prevSec nextSec
      = src.filter (fun p => tracker - prevSec ≤ p.x ∧ p.x ≤ tracker + nextSec) := by
  by_cases hsrc : src = []
  · subst hsrc; rfl
  · simp only [TimeWindowTransform.calculate, if_neg hsrc]
    rw [windowScan_eq_filter _ _ _ (hs.sublist (List.drop_sublist _ _))]
    apply filter_window_drop
    intro p hp
    apply mem_take_lowerBoundIdx_lt src (tracker - prevSec)
    have hstart := calculate_start_le src (tracker - prevSec) hsrc
    have hsame :
        src.take (if 1 < getIndexFromX src (tracker - prevSec)
            then ((getIndexFromX src (tracker - prevSec)) - 1).toNat else 0)
          = (src.take (lowerBoundIdx src (tracker - prevSec))).take
              (if 1 < getIndexFromX src (tracker - prevSec)
                then ((getIndexFromX src (tracker - prevSec)) - 1).toNat else 0) := by
      rw [List.take_take, min_eq_left hstart]
    rw [hsame] at hp
    exact List.take_subset _ _ hp

/-- Witness for C1 at a concrete sorted source. -/
theorem C1_time_window_rebuild_witness :
    TimeWindowTransform.calculate
        [⟨0, 1⟩, ⟨1, 2⟩, ⟨2, 3⟩] [⟨9, 9⟩] 1 1 1 = [⟨0, 1⟩, ⟨1, 2⟩, ⟨2, 3⟩] :=
  (C1_time_window_rebuild [⟨0, 1⟩, ⟨1, 2⟩, ⟨2, 3⟩] [⟨9, 9⟩] 1 1 1 (by decide)).trans
    (by norm_num [List.filter])

/-! Model of the undo/redo snapshot manager (mainwindow.cpp). -/

/-- Undo/redo state of MainWindow: `_undo_states` and `_redo_states`, both
deques with the oldest snapshot first and the newest last.  Snapshots
(serialized XML documents) are abstracted as natural numbers. -/
structure UndoState where
  undo : List Nat
  redo : List Nat
deriving DecidableEq, Repr

/-- While-loop shared by the undo/redo handlers: pop the front (oldest)
entry while the deque holds 100 or more. -/
def trimFront (l : List Nat) : List Nat :=
  if 100 ≤ l.length then l.drop (l.length - 99) else l

namespace MainWindow

/-- MainWindow::onUndoableChange with `elapsed` the value returned by
`_undo_timer.restart()` (milliseconds since the previous recorded edit):
when the previous snapshot is younger than 100 ms it is popped (replaced),
the undo deque is bounded to 100 entries, the new snapshot `snap` is
appended, and the redo deque is cleared.  `List.dropLast` on `[]` is `[]`,
matching the non-emptiness guard around `pop_back`. -/
def onUndoableChange (st : UndoState) (elapsed : Int) (snap : Nat) : UndoState :=
  let undo1 := if elapsed < 100 then st.undo.dropLast else st.undo
  { undo := trimFront undo1 ++ [snap], redo := [] }

/-- MainWindow::onUndoInvoked (the modal/popup suppression aside): when more
than one snapshot is stored, the top of the undo deque moves to the redo
deque (bounded to 100), is popped, and the new top is applied as the live
state (returned as the second component); otherwise nothing happens at all. -/
def onUndoInvoked (st : UndoState) : UndoState × Option Nat :=
  if 1 < st.undo.length then
    let top := st.undo.getLastD 0
    let undo1 := st.undo.dropLast
    ({ undo := undo1, redo := trimFront st.redo ++ [top] }, some (undo1.getLastD 0))
  else (st, none)

/-- Repeated invocations of `onUndoInvoked`, discarding the applied states. -/
def undoIter : Nat → UndoState → UndoState
  | 0, st => st
  | n + 1, st => undoIter n (onUndoInvoked st).1

end MainWindow

/-- C5: every undoable edit appends the new snapshot and clears the redo
stack; an edit less than 100 ms after the previous one replaces the top
instead, so two rapid edits leave one new entry while two spaced edits leave
two, each reachable by successive Undo calls. -/
theorem C5_undo_coalescing (snap0 snap1 snap2 : Nat) (e1 e2 : Int)
    (h1 : 100 ≤ e1) :
    MainWindow.onUndoableChange ⟨[snap0], []⟩ e1 snap1 = ⟨[snap0, snap1], []⟩
    ∧ (e2 < 100 →
        MainWindow.onUndoableChange ⟨[snap0, snap1], []⟩ e2 snap2
          = ⟨[snap0, snap2], []⟩)
    ∧ (100 ≤ e2 →
        MainWindow.onUndoableChange ⟨[snap0, snap1], []⟩ e2 snap2
            = ⟨[snap0, snap1, snap2], []⟩
          ∧ MainWindow.onUndoInvoked ⟨[snap0, snap1, snap2], []⟩
            = (⟨[snap0, snap1], [snap2]⟩, some snap1)
          ∧ MainWindow.onUndoInvoked ⟨[snap0, snap1], [snap2]⟩
            = (⟨[snap0], [snap2, snap1]⟩, some snap0)) := by
  refine ⟨?_, fun h2 => ?_, fun h2 => ⟨?_, ?_, ?_⟩⟩
  · simp [MainWindow.onUndoableChange, trimFront, not_lt.mpr h1]
  · simp [MainWindow.onUndoableChange, trimFront, h2, List.dropLast]
  · simp [MainWindow.onUndoableChange, trimFront, not_lt.mpr h2]
  · simp [MainWindow.onUndoInvoked, trimFront, List.dropLast]
  · simp [MainWindow.onUndoInvoked, trimFront, List.dropLast]

/-- Witness for C5 with concrete snapshots and elapsed times. -/
theorem C5_undo_coalescing_witness :
    MainWindow.onUndoableChange ⟨[0], []⟩ 150 1 = ⟨[0, 1], []⟩
    ∧ ((50 : Int) < 100 →
        MainWindow.onUndoableChange ⟨[0, 1], []⟩ 50 2 = ⟨[0, 2], []⟩)
    ∧ ((100 : Int) ≤ 50 →
        MainWindow.onUndoableChange ⟨[0, 1], []⟩ 50 2 = ⟨[0, 1, 2], []⟩
          ∧ MainWindow.onUndoInvoked ⟨[0, 1, 2], []⟩
            = (⟨[0, 1], [2]⟩, some 1)
          ∧ MainWindow.onUndoInvoked ⟨[0, 1], [2]⟩
            = (⟨[0], [2, 1]⟩, some 0)) :=
  C5_undo_coalescing 0 1 2 150 50 (by norm_num)

/-- C9: invoking Undo with at most one stored snapshot is a complete no-op
(stacks and live state untouched), and no number of Undo invocations ever
empties a non-empty undo stack. -/
theorem C9_undo_baseline_preserved (st : UndoState) :
    (st.undo.length ≤ 1 → MainWindow.onUndoInvoked st = (st, none))
    ∧ (st.undo ≠ [] → ∀ n, (MainWindow.undoIter n st).undo ≠ []) := by
  constructor
  · intro h
    simp [MainWindow.onUndoInvoked, not_lt.mpr h]
  · intro hne n
    induction n generalizing st with
    | zero => exact hne
    | succ n ih =>
      simp only [MainWindow.undoIter]
      apply ih
      unfold MainWindow.onUndoInvoked
      split
      · rename_i h
        simp only
        intro habs
        have := congrArg List.length habs
        rw [List.length_dropLast] at this
        simp at this
        omega
      · exact hne

/-- Witness for C9 on a singleton undo stack. -/
theorem C9_undo_baseline_preserved_witness :
    MainWindow.onUndoInvoked ⟨[5], []⟩ = (⟨[5], []⟩, none)
    ∧ (MainWindow.undoIter 3 ⟨[5], []⟩).undo ≠ [] :=
  ⟨(C9_undo_baseline_preserved ⟨[5], []⟩).1 (by decide),
   (C9_undo_baseline_preserved ⟨[5], []⟩).2 (by decide) 3⟩

/-! Model of the playback loop (mainwindow.cpp, onPlaybackLoop; the
`_publish_timer` interval is fixed to 20 ms in the constructor). -/

/-- Playback-relevant state: the tracker time and whether the play button is
checked. -/
structure PlaybackState where
  tracker : ℚ
  playing : Bool
deriving DecidableEq, Repr

namespace MainWindow

/-- MainWindow::onPlaybackLoop, one periodic tick: `wallDeltaMs` is the wall
clock elapsed since the previous publish, clamped below by the 20 ms timer
interval; the tracker advances by `delta_ms * 0.001 * playback_rate`; on
reaching the slider maximum the play button is unchecked unless looping is
enabled, and the tracker is put back at the slider minimum. -/
def onPlaybackLoop (st : PlaybackState) (wallDeltaMs : Int) (rate : ℚ)
    (loopEnabled : Bool) (sliderMin sliderMax : ℚ) : PlaybackState :=
  let deltaMs : Int := max 20 wallDeltaMs
  let t := st.tracker + (deltaMs : ℚ) * (1 / 1000) * rate
  if sliderMax ≤ t then
    { tracker := sliderMin,
      playing := if loopEnabled then st.playing else false }
  else { tracker := t, playing := st.playing }

end MainWindow

/-- C8: each tick advances the tracker by the elapsed wall time (in seconds)
times the playback rate; when the advanced time reaches the slider upper
bound, the tracker goes back to the lower bound, and playback additionally
stops when looping is disabled. -/
theorem C8_playback_tick (st : PlaybackState) (wallDeltaMs : Int) (rate : ℚ)
    (loopEnabled : Bool) (smin smax : ℚ) :
    (st.tracker + ((max 20 wallDeltaMs : Int) : ℚ) * (1 / 1000) * rate < smax →
      MainWindow.onPlaybackLoop st wallDeltaMs rate loopEnabled smin smax
        = ⟨st.tracker + ((max 20 wallDeltaMs : Int) : ℚ) * (1 / 1000) * rate,
           st.playing⟩)
    ∧ (smax ≤ st.tracker + ((max 20 wallDeltaMs : Int) : ℚ) * (1 / 1000) * rate →
        loopEnabled = true →
        MainWindow.onPlaybackLoop st wallDeltaMs rate loopEnabled smin smax
          = ⟨smin, st.playing⟩)
    ∧ (smax ≤ st.tracker + ((max 20 wallDeltaMs : Int) : ℚ) * (1 / 1000) * rate →
        loopEnabled = false →
        MainWindow.onPlaybackLoop st wallDeltaMs rate loopEnabled smin smax
          = ⟨smin, false⟩) := by
  refine ⟨fun hlt => ?_, fun hge hl => ?_, fun hge hl => ?_⟩
  · simp only [MainWindow.onPlaybackLoop]
    rw [if_neg (not_le.mpr hlt)]
  · simp only [MainWindow.onPlaybackLoop]
    rw [if_pos hge, hl, if_pos rfl]
  · simp only [MainWindow.onPlaybackLoop]
    rw [if_pos hge, hl]
    simp

/-- Witness for C8: a 20 ms tick at rate 1 advances the tracker by 1/50 s. -/
theorem C8_playback_tick_witness :
    MainWindow.onPlaybackLoop ⟨0, true⟩ 20 1 true 0 10 = ⟨1 / 50, true⟩ :=
  ((C8_playback_tick ⟨0, true⟩ 20 1 true 0 10).1 (by norm_num)).trans (by norm_num)

/-! Model of the deletion cascade (mainwindow.cpp, onDeleteMultipleCurves)
and of the transform collection used by the bulk evaluation pass. -/

/-- Transform as seen by MainWindow: its identity (`alias_name`, equal to the
destination curve name), its evaluation `order`, whether it is a reactive
(Lua) function, and the names of its source series. -/
structure Transform where
  name : String
  order : Int
  reactive : Bool
  sources : List String
deriving DecidableEq, Repr

/-- Insertion into `to_be_deleted`, a `std::set` modelled as a duplicate-free
list in insertion order (only membership is consumed downstream). -/
def insertName (s : List String) (n : String) : List String :=
  if n ∈ s then s else s ++ [n]

/-- Inner double loop of the cascade: scan every transform once and add the
name of each transform having a source in the current deletion set. -/
def scanOnce (ts : List Transform) (s : List String) : List String :=
  ts.foldl
    (fun acc t => if t.sources.any (fun src => decide (src ∈ acc))
      then insertName acc t.name else acc) s

/-- While-loop of onDeleteMultipleCurves: rescan until no new name is added.
The C++ loop is unbounded; here it carries fuel together with the proof
below (`cascadeLoop_fixed`) that `ts.length + 1` rounds always reach the
fixed point. -/
def cascadeLoop : Nat → List Transform → List String → List String
  | 0, _, s => s
  | fuel + 1, ts, s =>
    let s2 := scanOnce ts s
    if s.length < s2.length then cascadeLoop fuel ts s2 else s2

namespace MainWindow

/-- MainWindow::onDeleteMultipleCurves, the deletion-set computation: start
from the requested curve names and expand to a fixed point over the
transforms; the returned names are then erased from every store. -/
def onDeleteMultipleCurves (ts : List Transform) (curveNames : List String) :
    List String :=
  cascadeLoop (ts.length + 1) ts (curveNames.foldl insertName [])

/-- Final loop of onDeleteMultipleCurves: erase every name of the deletion
set from the plot-data store and from `_transform_functions`. -/
def applyDeletion (series : List String) (ts : List Transform)
    (dead : List String) : List String × List Transform :=
  (series.filter (fun n => decide (n ∉ dead)),
   ts.filter (fun t => decide (t.name ∉ dead)))

end MainWindow

theorem scanOnce_append (ts : List Transform) (s : List String) :
    ∃ extra, scanOnce ts s = s ++ extra ∧
      ∀ n ∈ extra, n ∈ ts.map Transform.name ∧ n ∉ s := by
  induction ts generalizing s with
  | nil => exact ⟨[], by simp [scanOnce], by simp⟩
  | cons t rest ih =>
    have hstep : scanOnce (t :: rest) s
        = scanOnce rest (if t.sources.any (fun src => decide (src ∈ s))
            then insertName s t.name else s) := rfl
    by_cases hsrc : t.sources.any (fun src => decide (src ∈ s))
    · rw [hstep, if_pos hsrc]
      by_cases hmem : t.name ∈ s
      · rw [insertName, if_pos hmem]
        obtain ⟨extra, he, hp⟩ := ih s
        exact ⟨extra, he, fun n hn => ⟨List.mem_cons_of_mem _ (hp n hn).1, (hp n hn).2⟩⟩
      · rw [insertName, if_neg hmem]
        obtain ⟨extra, he, hp⟩ := ih (s ++ [t.name])
        refine ⟨t.name :: extra, by simpa using he, ?_⟩
        intro n hn
        rcases List.mem_cons.mp hn with rfl | hn
        · exact ⟨List.mem_cons_self _ _, hmem⟩
        · obtain ⟨h1, h2⟩ := hp n hn
          exact ⟨List.mem_cons_of_mem _ h1, fun hc => h2 (List.mem_append_left _ hc)⟩
    · rw [hstep, if_neg hsrc]
      obtain ⟨extra, he, hp⟩ := ih s
      exact ⟨extra, he, fun n hn => ⟨List.mem_cons_of_mem _ (hp n hn).1, (hp n hn).2⟩⟩

theorem subset_scanOnce (ts : List Transform) (s : List String) :
    s ⊆ scanOnce ts s := by
  obtain ⟨extra, he, _⟩ := scanOnce_append ts s
  rw [he]
  exact List.subset_append_left _ _

theorem name_mem_scanOnce (ts : List Transform) (s : List String)
    (t : Transform) (ht : t ∈ ts) (src : String) (hsrc : src ∈ t.sources)
    (hs : src ∈ s) : t.name ∈ scanOnce ts s := by
  induction ts generalizing s with
  | nil => cases ht
  | cons u rest ih =>
    have hstep : scanOnce (u :: rest) s
        = scanOnce rest (if u.sources.any (fun src => decide (src ∈ s))
            then insertName s u.name else s) := rfl
    rcases List.mem_cons.mp ht with rfl | ht
    · have hany : t.sources.any (fun src => decide (src ∈ s)) := by
        rw [List.any_eq_true]
        exact ⟨src, hsrc, by simpa using hs⟩
      rw [hstep, if_pos hany]
      apply subset_scanOnce
      rw [insertName]
      split
      · assumption
      · exact List.mem_append_right _ (List.mem_singleton.mpr rfl)
    · rw [hstep]
      apply ih _ ht
      split
      · rw [insertName]
        split
        · exact hs
        · exact List.mem_append_left _ hs
      · exact hs

/-- Count of transform names still outside the deletion set; the decreasing
measure of the cascade while-loop. -/
def missingNames (ts : List Transform) (s : List String) : Nat :=
  (((ts.map Transform.name).dedup).filter (fun n => decide (n ∉ s))).length

theorem missingNames_lt (ts : List Transform) (s extra : List String)
    (hne : extra ≠ []) (hp : ∀ n ∈ extra, n ∈ ts.map Transform.name ∧ n ∉ s) :
    missingNames ts (s ++ extra) < missingNames ts s := by
  obtain ⟨n0, hn0⟩ := List.exists_mem_of_ne_nil extra hne
  have hsub : List.Sublist
      (((ts.map Transform.name).dedup).filter (fun n => decide (n ∉ s ++ extra)))
      (((ts.map Transform.name).dedup).filter (fun n => decide (n ∉ s))) := by
    apply List.monotone_filter_right
    intro a ha
    simp only [decide_eq_true_eq] at ha ⊢
    intro hc
    exact ha (List.mem_append_left _ hc)
  rcases Nat.lt_or_ge
      (((ts.map Transform.name).dedup).filter (fun n => decide (n ∉ s ++ extra))).length
      (((ts.map Transform.name).dedup).filter (fun n => decide (n ∉ s))).length with h | h
  · exact h
  · exfalso
    have heq := hsub.eq_of_length (Nat.le_antisymm hsub.length_le h)
    have hin : n0 ∈ ((ts.map Transform.name).dedup).filter (fun n => decide (n ∉ s)) := by
      rw [List.mem_filter]
      exact ⟨List.mem_dedup.mpr (hp n0 hn0).1, by simpa using (hp n0 hn0).2⟩
    rw [← heq, List.mem_filter] at hin
    have := hin.2
    simp only [decide_eq_true_eq] at this
    exact this (List.mem_append_right _ hn0)

theorem cascadeLoop_succ (fuel : Nat) (ts : List Transform) (s : List String) :
    cascadeLoop (fuel + 1) ts s
      = if s.length < (scanOnce ts s).length
          then cascadeLoop fuel ts (scanOnce ts s) else scanOnce ts s := rfl

theorem cascadeLoop_fixed (ts : List Transform) :
    ∀ (fuel : Nat) (s : List String), missingNames ts s ≤ fuel →
      scanOnce ts (cascadeLoop fuel ts s) = cascadeLoop fuel ts s := by
  intro fuel
  induction fuel with
  | zero =>
    intro s hm
    obtain ⟨extra, he, hp⟩ := scanOnce_append ts s
    have hnil : extra = [] := by
      cases extra with
      | nil => rfl
      | cons n rest =>
        exfalso
        have hlt := missingNames_lt ts s (n :: rest) (by simp) hp
        omega
    simpa [cascadeLoop, hnil] using he
  | succ fuel ih =>
    intro s hm
    obtain ⟨extra, he, hp⟩ := scanOnce_append ts s
    rw [cascadeLoop_succ]
    by_cases hgrow : s.length < (scanOnce ts s).length
    · rw [if_pos hgrow]
      apply ih
      have hne : extra ≠ [] := by
        intro habs
        rw [habs, List.append_nil] at he
        rw [he] at hgrow
        omega
      have := missingNames_lt ts s extra hne hp
      rw [← he] at this
      omega
    · rw [if_neg hgrow]
      have hnil : extra = [] := by
        have hlen := congrArg List.length he
        rw [List.length_append] at hlen
        cases extra with
        | nil => rfl
        | cons n rest => simp at hlen; omega
      have hss : scanOnce ts s = s := by rw [he, hnil, List.append_nil]
      rw [hss, hss]

theorem subset_cascadeLoop (ts : List Transform) :
    ∀ (fuel : Nat) (s : List String), s ⊆ cascadeLoop fuel ts s := by
  intro fuel
  induction fuel with
  | zero => intro s; exact fun _ h => h
  | succ fuel ih =>
    intro s
    rw [cascadeLoop_succ]
    split
    · exact fun a ha => ih (scanOnce ts s) (subset_scanOnce ts s ha)
    · exact subset_scanOnce ts s

theorem mem_foldl_insertName (l : List String) :
    ∀ (init : List String) (n : String), n ∈ init ∨ n ∈ l →
      n ∈ l.foldl insertName init := by
  induction l with
  | nil => intro init n h; simpa using h
  | cons m rest ih =>
    intro init n h
    show n ∈ rest.foldl insertName (insertName init m)
    apply ih
    rcases h with h | h
    · left
      rw [insertName]
      split
      · exact h
      · exact List.mem_append_left _ h
    · rcases List.mem_cons.mp h with rfl | h
      · left
        rw [insertName]
        split
        · assumption
        · exact List.mem_append_right _ (List.mem_singleton.mpr rfl)
      · right
        exact h

/-- C4: the deletion set computed for `{N}` contains every requested name and
is closed under the cascade (any transform with a source in the set has its
name, hence its destination series, in the set as well); hence transforms
transitively depending on `{N}` are deleted with their destinations. -/
theorem C4_deletion_cascade (ts : List Transform) (curveNames : List String) :
    (∀ n ∈ curveNames, n ∈ MainWindow.onDeleteMultipleCurves ts curveNames)
    ∧ (∀ t ∈ ts,
        (∃ src ∈ t.sources, src ∈ MainWindow.onDeleteMultipleCurves ts curveNames) →
        t.name ∈ MainWindow.onDeleteMultipleCurves ts curveNames) := by
  constructor
  · intro n hn
    exact subset_cascadeLoop ts _ _ (mem_foldl_insertName curveNames [] n (Or.inr hn))
  · intro t ht ⟨src, hsrc, hmem⟩
    have hfix := cascadeLoop_fixed ts (ts.length + 1) (curveNames.foldl insertName [])
      (by
        have : missingNames ts (curveNames.foldl insertName [])
            ≤ ((ts.map Transform.name).dedup).length := List.length_filter_le _ _
        have hd : ((ts.map Transform.name).dedup).length ≤ ts.length := by
          calc ((ts.map Transform.name).dedup).length
              ≤ (ts.map Transform.name).length := (List.dedup_sublist _).length_le
            _ = ts.length := List.length_map _ _
        omega)
    have hfix2 : scanOnce ts (MainWindow.onDeleteMultipleCurves ts curveNames)
        = MainWindow.onDeleteMultipleCurves ts curveNames := hfix
    have := name_mem_scanOnce ts (MainWindow.onDeleteMultipleCurves ts curveNames)
      t ht src hsrc hmem
    rwa [hfix2] at this

/-- Witness for C4 at the example of the spec: T1 derives B from A, T2
derives C from B; deleting A yields the deletion set {A, B, C}, which wipes
B, C and both transforms from the stores. -/
theorem C4_deletion_cascade_witness :
    "A" ∈ MainWindow.onDeleteMultipleCurves
        [⟨"B", 0, false, ["A"]⟩, ⟨"C", 1, false, ["B"]⟩] ["A"]
    ∧ "C" ∈ MainWindow.onDeleteMultipleCurves
        [⟨"B", 0, false, ["A"]⟩, ⟨"C", 1, false, ["B"]⟩] ["A"]
    ∧ MainWindow.onDeleteMultipleCurves
        [⟨"B", 0, false, ["A"]⟩, ⟨"C", 1, false, ["B"]⟩] ["A"] = ["A", "B", "C"]
    ∧ MainWindow.applyDeletion ["A", "B", "C", "D"]
        [⟨"B", 0, false, ["A"]⟩, ⟨"C", 1, false, ["B"]⟩] ["A", "B", "C"]
      = (["D"], []) :=
  ⟨(C4_deletion_cascade _ _).1 "A" (by decide),
   (C4_deletion_cascade _ _).2 ⟨"C", 1, false, ["B"]⟩ (by decide)
     ⟨"B", by decide, by decide⟩,
   by decide, by decide⟩

/-! Model of the bulk transform evaluation (mainwindow.cpp,
updateDataAndReplot): collect `_transform_functions`, sort by ascending
`order()`, then invoke `calculate()` on every transform that is not a
`ReactiveLuaFunction`. -/

/-- Insertion step of sorting by the `std::sort` comparator
`a->order() < b->order()`. -/
def insertByOrder (t : Transform) : List Transform → List Transform
  | [] => [t]
  | u :: rest =>
    if t.order ≤ u.order then t :: u :: rest else u :: insertByOrder t rest

/-- Sort of the collected transforms by ascending `order`. -/
def sortByOrder : List Transform → List Transform
  | [] => []
  | t :: rest => insertByOrder t (sortByOrder rest)

namespace MainWindow

/-- Evaluation sequence of the bulk pass in `updateDataAndReplot`: the
transforms sorted by ascending `order`, reactive Lua functions excluded
(they are recomputed by `updateReactivePlots` on tracker moves instead). -/
def bulkEvaluationSequence (ts : List Transform) : List Transform :=
  (sortByOrder ts).filter (fun t => !t.reactive)

end MainWindow

theorem mem_insertByOrder (t v : Transform) (l : List Transform) :
    v ∈ insertByOrder t l ↔ v = t ∨ v ∈ l := by
  induction l with
  | nil => simp [insertByOrder]
  | cons u rest ih =>
    simp only [insertByOrder]
    split
    · simp
    · simp only [List.mem_cons, ih]
      tauto

theorem insertByOrder_perm (t : Transform) (l : List Transform) :
    List.Perm (insertByOrder t l) (t :: l) := by
  induction l with
  | nil => exact List.Perm.refl _
  | cons u rest ih =>
    simp only [insertByOrder]
    split
    · exact List.Perm.refl _
    · exact (List.Perm.cons u ih).trans (List.Perm.swap t u rest)

theorem sortByOrder_perm (ts : List Transform) :
    List.Perm (sortByOrder ts) ts := by
  induction ts with
  | nil => exact List.Perm.refl _
  | cons t rest ih =>
    exact (insertByOrder_perm t (sortByOrder rest)).trans (List.Perm.cons t ih)

theorem pairwise_insertByOrder (t : Transform) (l : List Transform)
    (hl : List.Pairwise (fun a b => a.order ≤ b.order) l) :
    List.Pairwise (fun a b => a.order ≤ b.order) (insertByOrder t l) := by
  induction l with
  | nil => simp [insertByOrder]
  | cons u rest ih =>
    rcases List.pairwise_cons.mp hl with ⟨hu, hrest⟩
    simp only [insertByOrder]
    by_cases hto : t.order ≤ u.order
    · rw [if_pos hto]
      refine List.pairwise_cons.mpr ⟨?_, hl⟩
      intro v hv
      rcases List.mem_cons.mp hv with rfl | hv
      · exact hto
      · exact le_trans hto (hu v hv)
    · rw [if_neg hto]
      refine List.pairwise_cons.mpr ⟨?_, ih hrest⟩
      intro v hv
      rcases (mem_insertByOrder t v rest).mp hv with rfl | hv
      · omega
      · exact hu v hv

theorem pairwise_sortByOrder (ts : List Transform) :
    List.Pairwise (fun a b => a.order ≤ b.order) (sortByOrder ts) := by
  induction ts with
  | nil => exact List.Pairwise.nil
  | cons t rest ih => exact pairwise_insertByOrder t (sortByOrder rest) ih

/-- C2: the bulk pass evaluates no reactive transform; it evaluates every
static transform, in ascending `order` value; and whenever the `order`
values are consistent with the dependency edges (every producer carries a
smaller `order` than its consumers, which the spec guarantees by creating
transforms in topological order), the sequence evaluates producers before
consumers. -/
theorem C2_bulk_evaluation_pass (ts : List Transform) :
    (∀ t ∈ MainWindow.bulkEvaluationSequence ts, t.reactive = false)
    ∧ (∀ t ∈ ts, t.reactive = false → t ∈ MainWindow.bulkEvaluationSequence ts)
    ∧ List.Pairwise (fun a b => a.order ≤ b.order)
        (MainWindow.bulkEvaluationSequence ts)
    ∧ ((∀ a ∈ ts, ∀ b ∈ ts, b.name ∈ a.sources → b.order < a.order) →
        List.Pairwise (fun a b => b.name ∉ a.sources)
          (MainWindow.bulkEvaluationSequence ts)) := by
  have hmemseq : ∀ t, t ∈ MainWindow.bulkEvaluationSequence ts →
      t ∈ ts ∧ t.reactive = false := by
    intro t ht
    rw [MainWindow.bulkEvaluationSequence, List.mem_filter] at ht
    refine ⟨(sortByOrder_perm ts).subset ht.1, by simpa using ht.2⟩
  have hsorted : List.Pairwise (fun a b => a.order ≤ b.order)
      (MainWindow.bulkEvaluationSequence ts) :=
    (pairwise_sortByOrder ts).sublist (List.filter_sublist _)
  refine ⟨fun t ht => (hmemseq t ht).2, ?_, hsorted, ?_⟩
  · intro t ht hstat
    rw [MainWindow.bulkEvaluationSequence, List.mem_filter]
    exact ⟨(sortByOrder_perm ts).symm.subset ht, by simp [hstat]⟩
  · intro hdep
    refine List.Pairwise.imp_of_mem ?_ hsorted
    intro a b ha hb hle hsrc
    have hao := hmemseq a ha
    have hbo := hmemseq b hb
    have := hdep a hao.1 b hbo.1 hsrc
    omega

/-- Witness for C2 on a three-transform family: one reactive transform, one
producer, one consumer with a larger order. -/
theorem C2_bulk_evaluation_pass_witness :
    List.Pairwise (fun a b => b.name ∉ a.sources)
      (MainWindow.bulkEvaluationSequence
        [⟨"b", 2, false, ["a"]⟩, ⟨"a", 1, false, []⟩, ⟨"r", 0, true, []⟩])
    ∧ MainWindow.bulkEvaluationSequence
        [⟨"b", 2, false, ["a"]⟩, ⟨"a", 1, false, []⟩, ⟨"r", 0, true, []⟩]
      = [⟨"a", 1, false, []⟩, ⟨"b", 2, false, ["a"]⟩] :=
  ⟨(C2_bulk_evaluation_pass
      [⟨"b", 2, false, ["a"]⟩, ⟨"a", 1, false, []⟩, ⟨"r", 0, true, []⟩]).2.2.2
      (by decide),
   by decide⟩

/-! Model of the topological sort of custom equations (mainwindow.cpp,
loadLayoutFromFile): build the dependency graph from declared sources, run
the Kahn algorithm with a FIFO queue, and append any transforms left with
nonzero in-degree (a cycle) in their original order, with a diagnostic. -/

/-- SnippetData as consumed by the sort: the alias (destination) name, the
primary linked source and the additional sources. -/
structure SnippetData where
  alias_name : String
  linked_source : String
  additional_sources : List String
deriving DecidableEq, Repr

/-- Update of one cell of a vector, used for `dependents[u].push_back(i)`
and `in_degree[i]++`; out-of-range indices leave the vector unchanged. -/
def updAt {α : Type} (i : Nat) (f : α → α) : List α → List α
  | [] => []
  | a :: rest =>
    match i with
    | 0 => f a :: rest
    | j + 1 => a :: updAt j f rest

/-- Lookup in `name_to_index`, the `std::map` filled with
`name_to_index[alias_name] = i` for i ascending: later snippets overwrite
earlier ones, so the last matching index wins. -/
def nameToIndex (snips : List SnippetData) (dep : String) : Option Nat :=
  (List.range snips.length).foldl
    (fun acc i =>
      if (snips.getD i ⟨"", "", []⟩).alias_name = dep then some i else acc)
    none

/-- Declared sources of a snippet, primary one first. -/
def depsOf (s : SnippetData) : List String := s.linked_source :: s.additional_sources

/-- addDep lambda of the source: resolve the dependency name; when it names
another snippet, record the edge and bump the in-degree. -/
def addDep (snips : List SnippetData) (i : Nat)
    (st : List (List Nat) × List Int) (dep : String) :
    List (List Nat) × List Int :=
  match nameToIndex snips dep with
  | none => st
  | some u =>
    if u ≠ i then (updAt u (fun l => l ++ [i]) st.1, updAt i (fun v => v + 1) st.2)
    else st

/-- Construction of `dependents` and `in_degree` over all snippets. -/
def buildGraph (snips : List SnippetData) : List (List Nat) × List Int :=
  (List.range snips.length).foldl
    (fun st i => (depsOf (snips.getD i ⟨"", "", []⟩)).foldl (addDep snips i) st)
    (List.replicate snips.length [], List.replicate snips.length 0)

/-- Inner loop over `dependents[current]`: decrement each dependent and
enqueue those whose in-degree reaches zero. -/
def processDeps : List Nat → List Int → List Nat → List Int × List Nat
  | [], indeg, q => (indeg, q)
  | d :: ds, indeg, q =>
    let v := indeg.getD d 0 - 1
    let indeg2 := updAt d (fun _ => v) indeg
    if v = 0 then processDeps ds indeg2 (q ++ [d]) else processDeps ds indeg2 q

/-- Sum of the positive parts of the in-degree vector: together with the
queue length this is the variant of the Kahn while-loop. -/
def intSum (l : List Int) : Nat := (l.map Int.toNat).sum

/-- Kahn while-loop: pop the queue front, append it to the sorted order and
process its dependents.  The C++ loop is unbounded; the fuel is set by the
caller together with the proof (`processDeps_measure` below) that
`queue.length + intSum in_degree` rounds always finish the queue. -/
def kahnLoop (deps : List (List Nat)) :
    Nat → List Int → List Nat → List Nat → List Int × List Nat
  | 0, indeg, _, sorted => (indeg, sorted)
  | _ + 1, indeg, [], sorted => (indeg, sorted)
  | fuel + 1, indeg, cur :: qrest, sorted =>
    let pr := processDeps (deps.getD cur []) indeg qrest
    kahnLoop deps fuel pr.1 pr.2 (sorted ++ [cur])

/-- Initial queue of the Kahn algorithm: the snippets with zero in-degree, in
ascending position. -/
def kahnQueue0 (snips : List SnippetData) : List Nat :=
  (List.range snips.length).filter
    (fun i => decide ((buildGraph snips).2.getD i 0 = 0))

/-- State after the Kahn while-loop: the final in-degree vector and the
topologically sorted positions. -/
def kahnRes (snips : List SnippetData) : List Int × List Nat :=
  kahnLoop (buildGraph snips).1
    ((kahnQueue0 snips).length + intSum (buildGraph snips).2)
    (buildGraph snips).2 (kahnQueue0 snips) []

/-- Topological sort of loadLayoutFromFile, returning the positions of the
snippets in evaluation order together with the cyclic-dependency flag: after
the Kahn algorithm, any snippet left with nonzero in-degree is appended in
original (ascending position) order and the diagnostic is raised. -/
def kahn (snips : List SnippetData) : List Nat × Bool :=
  if (kahnRes snips).2.length < snips.length then
    ((kahnRes snips).2
      ++ (List.range snips.length).filter
          (fun i => decide ((kahnRes snips).1.getD i 0 ≠ 0)),
     true)
  else ((kahnRes snips).2, false)

/-! Basic lemmas about `updAt` and `intSum`. -/

theorem updAt_length {α : Type} (f : α → α) :
    ∀ (l : List α) (i : Nat), (updAt i f l).length = l.length := by
  intro l
  induction l with
  | nil => intro i; simp [updAt]
  | cons a rest ih =>
    intro i
    cases i with
    | zero => simp [updAt]
    | succ j => simpa [updAt] using ih j

theorem updAt_ge {α : Type} (f : α → α) :
    ∀ (l : List α) (i : Nat), l.length ≤ i → updAt i f l = l := by
  intro l
  induction l with
  | nil => intro i _; simp [updAt]
  | cons a rest ih =>
    intro i hi
    cases i with
    | zero => simp at hi
    | succ j =>
      simp only [List.length_cons] at hi
      simpa [updAt] using ih j (by omega)

theorem getD_updAt_self {α : Type} (f : α → α) (d : α) :
    ∀ (l : List α) (i : Nat), i < l.length →
      (updAt i f l).getD i d = f (l.getD i d) := by
  intro l
  induction l with
  | nil => intro i hi; simp at hi
  | cons a rest ih =>
    intro i hi
    cases i with
    | zero => simp [updAt]
    | succ j =>
      simp only [List.length_cons] at hi
      simpa [updAt] using ih j (by omega)

theorem getD_updAt_ne {α : Type} (f : α → α) (d : α) :
    ∀ (l : List α) (i j : Nat), j ≠ i →
      (updAt i f l).getD j d = l.getD j d := by
  intro l
  induction l with
  | nil => intro i j _; simp [updAt]
  | cons a rest ih =>
    intro i j hne
    cases i with
    | zero =>
      cases j with
      | zero => exact absurd rfl hne
      | succ m => simp [updAt]
    | succ k =>
      cases j with
      | zero => simp [updAt]
      | succ m => simpa [updAt] using ih k m (by omega)

theorem intSum_updAt (v : Int) :
    ∀ (l : List Int) (d : Nat), d < l.length →
      intSum (updAt d (fun _ => v) l) + (l.getD d 0).toNat
        = intSum l + v.toNat := by
  intro l
  induction l with
  | nil => intro d hd; simp at hd
  | cons a rest ih =>
    intro d hd
    cases d with
    | zero =>
      simp only [updAt, intSum, List.map_cons, List.sum_cons, List.getD_cons_zero]
      have := ih
      omega
    | succ j =>
      simp only [List.length_cons] at hd
      have := ih j (by omega)
      simp only [updAt, intSum, List.map_cons, List.sum_cons,
        List.getD_cons_succ] at this ⊢
      omega

theorem processDeps_cons (d : Nat) (ds : List Nat) (indeg : List Int)
    (q : List Nat) :
    processDeps (d :: ds) indeg q
      = if indeg.getD d 0 - 1 = 0
          then processDeps ds (updAt d (fun _ => indeg.getD d 0 - 1) indeg) (q ++ [d])
          else processDeps ds (updAt d (fun _ => indeg.getD d 0 - 1) indeg) q := rfl

theorem processDeps_measure :
    ∀ (ds : List Nat) (indeg : List Int) (q : List Nat),
      (processDeps ds indeg q).2.length + intSum (processDeps ds indeg q).1
        ≤ q.length + intSum indeg := by
  intro ds
  induction ds with
  | nil => intro indeg q; exact Nat.le_refl _
  | cons d ds ih =>
    intro indeg q
    by_cases hd : d < indeg.length
    · have hsum := intSum_updAt (indeg.getD d 0 - 1) indeg d hd
      by_cases hv : indeg.getD d 0 - 1 = 0
      · rw [processDeps_cons, if_pos hv]
        have h2 := ih (updAt d (fun _ => indeg.getD d 0 - 1) indeg) (q ++ [d])
        have h3 : (indeg.getD d 0).toNat = 1 := by omega
        simp only [List.length_append, List.length_cons, List.length_nil] at h2 ⊢
        omega
      · rw [processDeps_cons, if_neg hv]
        have h2 := ih (updAt d (fun _ => indeg.getD d 0 - 1) indeg) q
        omega
    · have hup := updAt_ge (fun _ => indeg.getD d 0 - 1) indeg d (by omega)
      have hget : indeg.getD d 0 = 0 := List.getD_eq_default _ _ (by omega)
      rw [processDeps_cons, hup, hget]
      norm_num
      exact ih indeg q

/-! Correctness of the built graph: the in-degree of a snippet equals the
number of edges recorded towards it in `dependents`. -/

/-- Number of edges into snippet `i`: occurrences of `i` across all the
dependents lists. -/
def joinCount (deps : List (List Nat)) (i : Nat) : Nat := deps.flatten.count i

/-- Decrements received by `i` from the already popped (sorted) nodes. -/
def decrSum (deps : List (List Nat)) (s : List Nat) (i : Nat) : Nat :=
  (s.map (fun u => (deps.getD u []).count i)).sum

/-- Shape and counting facts holding for the output of `buildGraph`. -/
structure GraphOK (deps : List (List Nat)) (indeg : List Int) (n : Nat) : Prop where
  hdl : deps.length = n
  hil : indeg.length = n
  hmem : ∀ j ∈ deps.flatten, j < n
  hcnt : ∀ i, indeg.getD i 0 = (joinCount deps i : Int)

theorem nameToIndex_lt (snips : List SnippetData) (dep : String) :
    ∀ u, nameToIndex snips dep = some u → u < snips.length := by
  have key : ∀ (l : List Nat) (acc : Option Nat),
      (∀ x, acc = some x → x < snips.length) → (∀ y ∈ l, y < snips.length) →
      ∀ u, l.foldl
          (fun acc i =>
            if (snips.getD i ⟨"", "", []⟩).alias_name = dep then some i else acc)
          acc = some u → u < snips.length := by
    intro l
    induction l with
    | nil => intro acc hacc _ u h; exact hacc u h
    | cons y rest ih =>
      intro acc hacc hl u h
      refine ih _ ?_ (fun z hz => hl z (List.mem_cons_of_mem _ hz)) u h
      intro x hx
      simp only [] at hx
      by_cases hc : (snips.getD y ⟨"", "", []⟩).alias_name = dep
      · rw [if_pos hc] at hx
        cases hx
        exact hl y (List.mem_cons_self _ _)
      · rw [if_neg hc] at hx
        exact hacc x hx
  intro u h
  exact key (List.range snips.length) none (by simp)
    (fun y hy => List.mem_range.mp hy) u h

theorem flatten_updAt_push (x : Nat) :
    ∀ (deps : List (List Nat)) (u : Nat), u < deps.length →
      List.Perm ((updAt u (fun l => l ++ [x]) deps).flatten) (x :: deps.flatten) := by
  intro deps
  induction deps with
  | nil => intro u hu; simp at hu
  | cons a rest ih =>
    intro u hu
    cases u with
    | zero =>
      simp only [updAt, List.flatten_cons]
      rw [List.append_assoc, List.singleton_append]
      exact List.perm_middle
    | succ v =>
      simp only [List.length_cons] at hu
      simp only [updAt, List.flatten_cons]
      exact ((ih v (by omega)).append_left a).trans List.perm_middle

theorem flatten_count_split (i : Nat) :
    ∀ (deps : List (List Nat)) (u : Nat), u < deps.length →
      deps.flatten.count i
        = (deps.getD u []).count i
          + (updAt u (fun _ => ([] : List Nat)) deps).flatten.count i := by
  intro deps
  induction deps with
  | nil => intro u hu; simp at hu
  | cons a rest ih =>
    intro u hu
    cases u with
    | zero =>
      simp only [updAt, List.flatten_cons, List.count_append, List.getD_cons_zero]
      simp
    | succ v =>
      simp only [List.length_cons] at hu
      have := ih v (by omega)
      simp only [updAt, List.flatten_cons, List.count_append, List.getD_cons_succ]
      omega

theorem decrSum_le_joinCount (i : Nat) :
    ∀ (s : List Nat) (deps : List (List Nat)), s.Nodup →
      (∀ u ∈ s, u < deps.length) → decrSum deps s i ≤ joinCount deps i := by
  intro s
  induction s with
  | nil => intro deps _ _; exact Nat.zero_le _
  | cons u rest ih =>
    intro deps hnd hlt
    rcases List.nodup_cons.mp hnd with ⟨hu, hrest⟩
    have hul : u < deps.length := hlt u (List.mem_cons_self _ _)
    have hsplit := flatten_count_split i deps u hul
    have hsame : decrSum deps rest i
        = decrSum (updAt u (fun _ => ([] : List Nat)) deps) rest i := by
      unfold decrSum
      congr 1
      apply List.map_congr_left
      intro v hv
      rw [getD_updAt_ne _ _ _ _ _ (fun h => hu (by rw [← h]; exact hv))]
    have hrec := ih (updAt u (fun _ => ([] : List Nat)) deps) hrest
      (fun v hv => by rw [updAt_length]; exact hlt v (List.mem_cons_of_mem _ hv))
    unfold decrSum joinCount at *
    simp only [List.map_cons, List.sum_cons]
    omega

theorem addDep_ok (snips : List SnippetData) (i : Nat) (hi : i < snips.length)
    (deps : List (List Nat)) (indeg : List Int)
    (hok : GraphOK deps indeg snips.length) (dep : String) :
    GraphOK (addDep snips i (deps, indeg) dep).1
      (addDep snips i (deps, indeg) dep).2 snips.length := by
  cases hu : nameToIndex snips dep with
  | none => simp only [addDep, hu]; exact hok
  | some u =>
    simp only [addDep, hu]
    by_cases hne : u ≠ i
    · rw [if_pos hne]
      have hul : u < deps.length := by
        rw [hok.hdl]; exact nameToIndex_lt snips dep u hu
      have hperm := flatten_updAt_push i deps u hul
      refine ⟨by rw [updAt_length]; exact hok.hdl,
              by rw [updAt_length]; exact hok.hil, ?_, ?_⟩
      · intro j hj
        rw [hperm.mem_iff, List.mem_cons] at hj
        rcases hj with rfl | hj
        · exact hi
        · exact hok.hmem j hj
      · intro k
        have hcount : joinCount (updAt u (fun l => l ++ [i]) deps) k
            = deps.flatten.count k + (if k = i then 1 else 0) := by
          unfold joinCount
          rw [hperm.count_eq, List.count_cons]
          simp only [beq_iff_eq]
          by_cases h : k = i
          · simp [h]
          · have h2 : ¬ i = k := fun hh => h hh.symm
            simp [h, h2]
        by_cases hk : k = i
        · subst hk
          have hkl : k < indeg.length := by rw [hok.hil]; exact hi
          rw [getD_updAt_self _ _ _ _ hkl, hok.hcnt k, hcount]
          simp only [joinCount, if_pos rfl]
          push_cast
          omega
        · rw [getD_updAt_ne _ _ _ _ _ hk, hok.hcnt k, hcount]
          simp [hk, joinCount]
    · rw [if_neg hne]
      exact hok

theorem buildGraph_ok (snips : List SnippetData) :
    GraphOK (buildGraph snips).1 (buildGraph snips).2 snips.length := by
  have key : ∀ (l : List Nat), (∀ y ∈ l, y < snips.length) →
      ∀ (st : List (List Nat) × List Int), GraphOK st.1 st.2 snips.length →
      GraphOK (l.foldl
          (fun st i => (depsOf (snips.getD i ⟨"", "", []⟩)).foldl (addDep snips i) st)
          st).1
        (l.foldl
          (fun st i => (depsOf (snips.getD i ⟨"", "", []⟩)).foldl (addDep snips i) st)
          st).2 snips.length := by
    intro l
    induction l with
    | nil => intro _ st hok; exact hok
    | cons y rest ih =>
      intro hl st hok
      refine ih (fun z hz => hl z (List.mem_cons_of_mem _ hz)) _ ?_
      have hy : y < snips.length := hl y (List.mem_cons_self _ _)
      have inner : ∀ (ds : List String) (st2 : List (List Nat) × List Int),
          GraphOK st2.1 st2.2 snips.length →
          GraphOK (ds.foldl (addDep snips y) st2).1
            (ds.foldl (addDep snips y) st2).2 snips.length := by
        intro ds
        induction ds with
        | nil => intro st2 hok2; exact hok2
        | cons dp rest2 ih2 =>
          intro st2 hok2
          exact ih2 _ (addDep_ok snips y hy st2.1 st2.2 hok2 dp)
      exact inner _ st hok
  have hinit : GraphOK (List.replicate snips.length ([] : List Nat))
      (List.replicate snips.length (0 : Int)) snips.length := by
    refine ⟨List.length_replicate _ _, List.length_replicate _ _, ?_, ?_⟩
    · intro j hj
      rw [List.mem_flatten] at hj
      obtain ⟨l, hl, hjl⟩ := hj
      rw [List.eq_of_mem_replicate hl] at hjl
      cases hjl
    · intro k
      have hflat : (List.replicate snips.length ([] : List Nat)).flatten = [] := by
        rw [List.eq_nil_iff_forall_not_mem]
        intro a ha
        rw [List.mem_flatten] at ha
        obtain ⟨l, hl, hal⟩ := ha
        rw [List.eq_of_mem_replicate hl] at hal
        cases hal
      unfold joinCount
      rw [hflat]
      simp only [List.count_nil, Nat.cast_zero]
      by_cases hk : k < snips.length
      · rw [List.getD_eq_getElem _ _ (by simpa using hk)]
        simp
      · rw [List.getD_eq_default _ _ (by simpa using hk)]
  exact key (List.range snips.length) (fun y hy => List.mem_range.mp hy) _ hinit

theorem processDeps_spec :
    ∀ (ds : List Nat) (indeg : List Int) (q : List Nat),
      (∀ d ∈ ds, d < indeg.length) →
      (∀ i, (ds.count i : Int) ≤ indeg.getD i 0) →
      (processDeps ds indeg q).1.length = indeg.length
      ∧ (∀ i, (processDeps ds indeg q).1.getD i 0
          = indeg.getD i 0 - (ds.count i : Int))
      ∧ ∃ newly, (processDeps ds indeg q).2 = q ++ newly ∧ newly.Nodup
          ∧ ∀ i, i ∈ newly ↔ 0 < ds.count i ∧ indeg.getD i 0 = (ds.count i : Int) := by
  intro ds
  induction ds with
  | nil =>
    intro indeg q _ _
    exact ⟨rfl, fun i => by simp [processDeps], [],
      by simp [processDeps], List.nodup_nil, fun i => by simp⟩
  | cons d ds ih =>
    intro indeg q hlen hcnt
    have hd : d < indeg.length := hlen d (List.mem_cons_self _ _)
    have hcd := hcnt d
    rw [List.count_cons_self] at hcd
    push_cast at hcd
    have hget2self : (updAt d (fun _ => indeg.getD d 0 - 1) indeg).getD d 0
        = indeg.getD d 0 - 1 := getD_updAt_self _ _ _ _ hd
    have hget2ne : ∀ i, i ≠ d →
        (updAt d (fun _ => indeg.getD d 0 - 1) indeg).getD i 0
          = indeg.getD i 0 :=
      fun i hi => getD_updAt_ne _ _ _ _ _ hi
    have hlen2 : ∀ e ∈ ds,
        e < (updAt d (fun _ => indeg.getD d 0 - 1) indeg).length := by
      intro e he
      rw [updAt_length]
      exact hlen e (List.mem_cons_of_mem _ he)
    have hcnt2 : ∀ i, (ds.count i : Int)
        ≤ (updAt d (fun _ => indeg.getD d 0 - 1) indeg).getD i 0 := by
      intro i
      by_cases hi : i = d
      · subst hi
        rw [hget2self]
        omega
      · rw [hget2ne i hi]
        have := hcnt i
        rwa [List.count_cons_of_ne hi] at this
    obtain ⟨ihlen, ihget, newly, ihq, ihnd, ihiff⟩ :=
      ih (updAt d (fun _ => indeg.getD d 0 - 1) indeg) (q ++ [d]) hlen2 hcnt2
    obtain ⟨ihlenB, ihgetB, newlyB, ihqB, ihndB, ihiffB⟩ :=
      ih (updAt d (fun _ => indeg.getD d 0 - 1) indeg) q hlen2 hcnt2
    by_cases hv : indeg.getD d 0 - 1 = 0
    · rw [processDeps_cons, if_pos hv]
      refine ⟨by rw [ihlen, updAt_length], ?_, d :: newly, ?_, ?_, ?_⟩
      · intro i
        rw [ihget i]
        by_cases hi : i = d
        · subst hi
          rw [hget2self, List.count_cons_self]
          push_cast
          ring
        · rw [hget2ne i hi, List.count_cons_of_ne hi]
      · rw [ihq, List.append_assoc, List.singleton_append]
      · rw [List.nodup_cons]
        refine ⟨?_, ihnd⟩
        intro hdm
        rcases (ihiff d).mp hdm with ⟨hpos, heq⟩
        rw [hget2self] at heq
        omega
      · intro i
        by_cases hi : i = d
        · subst hi
          constructor
          · intro _
            rw [List.count_cons_self]
            push_cast
            omega
          · intro _
            exact List.mem_cons_self _ _
        · rw [List.count_cons_of_ne hi, List.mem_cons]
          constructor
          · intro h
            rcases h with h | h
            · exact absurd h hi
            · have := (ihiff i).mp h
              rwa [hget2ne i hi] at this
          · intro h
            right
            rw [ihiff i, hget2ne i hi]
            exact h
    · rw [processDeps_cons, if_neg hv]
      refine ⟨by rw [ihlenB, updAt_length], ?_, newlyB, ihqB, ihndB, ?_⟩
      · intro i
        rw [ihgetB i]
        by_cases hi : i = d
        · subst hi
          rw [hget2self, List.count_cons_self]
          push_cast
          ring
        · rw [hget2ne i hi, List.count_cons_of_ne hi]
      · intro i
        by_cases hi : i = d
        · subst hi
          rw [ihiffB i, hget2self, List.count_cons_self]
          constructor
          · rintro ⟨hpos, heq⟩
            push_cast
            omega
          · intro h
            push_cast at h
            omega
        · rw [ihiffB i, hget2ne i hi, List.count_cons_of_ne hi]

/-- Invariant of the Kahn while-loop: the popped and queued positions are
distinct and in range, the queued/popped ones are exactly those whose
current in-degree is zero, and the current in-degree of each node is its
edge count minus the decrements received from popped nodes. -/
structure LoopInv (deps : List (List Nat)) (n : Nat)
    (indeg : List Int) (queue sorted : List Nat) : Prop where
  hnd : (sorted ++ queue).Nodup
  hlt : ∀ i ∈ sorted ++ queue, i < n
  hil : indeg.length = n
  hdl : deps.length = n
  hmemj : ∀ j ∈ deps.flatten, j < n
  hcnt : ∀ i, indeg.getD i 0
    = (joinCount deps i : Int) - (decrSum deps sorted i : Int)
  hiff : ∀ i, i < n → (i ∈ sorted ++ queue ↔ indeg.getD i 0 = 0)

theorem decrSum_append_one (deps : List (List Nat)) (s : List Nat)
    (cur i : Nat) :
    decrSum deps (s ++ [cur]) i = decrSum deps s i + (deps.getD cur []).count i := by
  unfold decrSum
  rw [List.map_append, List.sum_append]
  simp

theorem loopInv_step (deps : List (List Nat)) (n : Nat) (indeg : List Int)
    (cur : Nat) (qrest sorted : List Nat)
    (hinv : LoopInv deps n indeg (cur :: qrest) sorted) :
    LoopInv deps n (processDeps (deps.getD cur []) indeg qrest).1
      (processDeps (deps.getD cur []) indeg qrest).2 (sorted ++ [cur]) := by
  have hcurn : cur < n := hinv.hlt cur (by simp)
  have hcurd : cur < deps.length := by rw [hinv.hdl]; exact hcurn
  have hds_flat : ∀ e ∈ deps.getD cur [], e ∈ deps.flatten := by
    intro e he
    have : deps.getD cur [] ∈ deps := by
      rw [List.getD_eq_getElem _ _ hcurd]
      exact List.getElem_mem _
    exact List.mem_flatten_of_mem this he
  have hds_lt : ∀ e ∈ deps.getD cur [], e < n :=
    fun e he => hinv.hmemj e (hds_flat e he)
  have hndS : (sorted ++ [cur]).Nodup := by
    have hsub : List.Sublist (sorted ++ [cur]) (sorted ++ cur :: qrest) :=
      List.Sublist.append_left ((List.nil_sublist qrest).cons₂ cur) sorted
    exact List.Nodup.sublist hsub hinv.hnd
  have hSlt : ∀ u ∈ sorted ++ [cur], u < deps.length := by
    intro u hu
    rw [hinv.hdl]
    rcases List.mem_append.mp hu with h | h
    · exact hinv.hlt u (List.mem_append_left _ h)
    · rw [List.mem_singleton] at h
      subst h
      exact hcurn
  have hSle : ∀ i, decrSum deps (sorted ++ [cur]) i ≤ joinCount deps i :=
    fun i => decrSum_le_joinCount i (sorted ++ [cur]) deps hndS hSlt
  have pre2 : ∀ i, ((deps.getD cur []).count i : Int) ≤ indeg.getD i 0 := by
    intro i
    rw [hinv.hcnt i]
    have := hSle i
    rw [decrSum_append_one] at this
    omega
  have pre1 : ∀ d ∈ deps.getD cur [], d < indeg.length := by
    intro d hdm
    rw [hinv.hil]
    exact hds_lt d hdm
  obtain ⟨slen, sget, newly, hq2, hnodup, hiffN⟩ :=
    processDeps_spec (deps.getD cur []) indeg qrest pre1 pre2
  have hzero_ds : ∀ i, indeg.getD i 0 = 0 → (deps.getD cur []).count i = 0 := by
    intro i h0
    have h1 := hinv.hcnt i
    have h2 := hSle i
    rw [decrSum_append_one] at h2
    rw [h0] at h1
    omega
  have hnewly_lt : ∀ i ∈ newly, i < n := by
    intro i hi
    have := ((hiffN i).mp hi).1
    exact hds_lt i (List.count_pos_iff.mp this)
  have hnewly_fresh : ∀ i ∈ newly, i ∉ sorted ++ cur :: qrest := by
    intro i hi hold
    have hlti : i < n := hnewly_lt i hi
    have := (hinv.hiff i hlti).mp hold
    have h2 := ((hiffN i).mp hi)
    omega
  have hreassoc : (sorted ++ [cur]) ++ (qrest ++ newly)
      = (sorted ++ cur :: qrest) ++ newly := by
    simp [List.append_assoc]
  rw [hq2]
  refine ⟨?_, ?_, by rw [slen, hinv.hil], hinv.hdl, hinv.hmemj, ?_, ?_⟩
  · rw [hreassoc, List.nodup_append]
    refine ⟨hinv.hnd, hnodup, ?_⟩
    intro a ha han
    exact hnewly_fresh a han ha
  · intro i hi
    rw [hreassoc, List.mem_append] at hi
    rcases hi with h | h
    · exact hinv.hlt i h
    · exact hnewly_lt i h
  · intro i
    rw [sget i, hinv.hcnt i, decrSum_append_one]
    push_cast
    ring
  · intro i hiN
    rw [hreassoc, List.mem_append, sget i]
    constructor
    · intro h
      rcases h with h | h
      · have h0 := (hinv.hiff i hiN).mp h
        have := hzero_ds i h0
        rw [h0, this]
        simp
      · have := (hiffN i).mp h
        rw [this.2]
        ring
    · intro h
      by_cases hc : 0 < (deps.getD cur []).count i
      · right
        rw [hiffN i]
        refine ⟨hc, by omega⟩
      · left
        rw [hinv.hiff i hiN]
        have : (deps.getD cur []).count i = 0 := by omega
        rw [this] at h
        push_cast at h
        omega

theorem kahnLoop_post (deps : List (List Nat)) (n : Nat) :
    ∀ (fuel : Nat) (indeg : List Int) (queue sorted : List Nat),
      queue.length + intSum indeg ≤ fuel →
      LoopInv deps n indeg queue sorted →
      (kahnLoop deps fuel indeg queue sorted).2.Nodup
      ∧ (∀ i ∈ (kahnLoop deps fuel indeg queue sorted).2, i < n)
      ∧ ∀ i, i < n →
          (i ∈ (kahnLoop deps fuel indeg queue sorted).2
            ↔ (kahnLoop deps fuel indeg queue sorted).1.getD i 0 = 0) := by
  intro fuel
  induction fuel with
  | zero =>
    intro indeg queue sorted hf hinv
    have hq : queue = [] := by
      rw [← List.length_eq_zero]
      omega
    subst hq
    refine ⟨by simpa using hinv.hnd, ?_, ?_⟩
    · intro i hi
      exact hinv.hlt i (by simpa using hi)
    · intro i hiN
      have := hinv.hiff i hiN
      simpa using this
  | succ fuel ih =>
    intro indeg queue sorted hf hinv
    cases queue with
    | nil =>
      refine ⟨by simpa using hinv.hnd, ?_, ?_⟩
      · intro i hi
        exact hinv.hlt i (by simpa using hi)
      · intro i hiN
        have := hinv.hiff i hiN
        simpa using this
    | cons cur qrest =>
      have hstep := loopInv_step deps n indeg cur qrest sorted hinv
      have hmeas := processDeps_measure (deps.getD cur []) indeg qrest
      have hred : kahnLoop deps (fuel + 1) indeg (cur :: qrest) sorted
          = kahnLoop deps fuel (processDeps (deps.getD cur []) indeg qrest).1
              (processDeps (deps.getD cur []) indeg qrest).2
              (sorted ++ [cur]) := rfl
      rw [hred]
      apply ih
      · simp only [List.length_cons] at hf
        omega
      · exact hstep

theorem kahn_perm (snips : List SnippetData) :
    List.Perm (kahn snips).1 (List.range snips.length) := by
  have gok := buildGraph_ok snips
  have hinv0 : LoopInv (buildGraph snips).1 snips.length (buildGraph snips).2
      (kahnQueue0 snips) [] := by
    refine ⟨?_, ?_, gok.hil, gok.hdl, gok.hmem, ?_, ?_⟩
    · simpa using List.Nodup.filter _ (List.nodup_range _)
    · intro i hi
      simp only [List.nil_append] at hi
      unfold kahnQueue0 at hi
      rw [List.mem_filter] at hi
      exact List.mem_range.mp hi.1
    · intro i
      rw [gok.hcnt i]
      unfold decrSum
      simp
    · intro i hiN
      simp only [List.nil_append]
      unfold kahnQueue0
      rw [List.mem_filter]
      constructor
      · intro h
        simpa using h.2
      · intro h
        exact ⟨List.mem_range.mpr hiN, by simpa using h⟩
  have hpost := kahnLoop_post (buildGraph snips).1 snips.length
    ((kahnQueue0 snips).length + intSum (buildGraph snips).2)
    (buildGraph snips).2 (kahnQueue0 snips) [] (le_refl _) hinv0
  rw [show kahnLoop (buildGraph snips).1
      ((kahnQueue0 snips).length + intSum (buildGraph snips).2)
      (buildGraph snips).2 (kahnQueue0 snips) [] = kahnRes snips from rfl]
    at hpost
  obtain ⟨hnd, hbound, hiff⟩ := hpost
  by_cases hlt : (kahnRes snips).2.length < snips.length
  · have hkahn1 : (kahn snips).1 = (kahnRes snips).2
        ++ (List.range snips.length).filter
            (fun i => decide ((kahnRes snips).1.getD i 0 ≠ 0)) := by
      unfold kahn
      rw [if_pos hlt]
    rw [hkahn1, List.perm_iff_count]
    intro a
    rw [List.count_append]
    by_cases han : a < snips.length
    · have hrange : (List.range snips.length).count a = 1 :=
        List.count_eq_one_of_mem (List.nodup_range _) (List.mem_range.mpr han)

      by_cases hmem : a ∈ (kahnRes snips).2
      · have h1 : (kahnRes snips).2.count a = 1 :=
          List.count_eq_one_of_mem hnd hmem
        have h0 : (kahnRes snips).1.getD a 0 = 0 := (hiff a han).mp hmem
        have h2 : ((List.range snips.length).filter
            (fun i => decide ((kahnRes snips).1.getD i 0 ≠ 0))).count a = 0 := by
          apply List.count_eq_zero_of_not_mem
          rw [List.mem_filter]
          rintro ⟨_, hdec⟩
          simp only [decide_eq_true_eq] at hdec
          exact hdec h0
        omega
      · have h1 : (kahnRes snips).2.count a = 0 :=
          List.count_eq_zero_of_not_mem hmem
        have hne0 : (kahnRes snips).1.getD a 0 ≠ 0 :=
          fun h => hmem ((hiff a han).mpr h)
        have h2 : ((List.range snips.length).filter
            (fun i => decide ((kahnRes snips).1.getD i 0 ≠ 0))).count a = 1 := by
          apply List.count_eq_one_of_mem (List.Nodup.filter _ (List.nodup_range _))
          rw [List.mem_filter]
          exact ⟨List.mem_range.mpr han, by simpa using hne0⟩
        omega
    · have h1 : (kahnRes snips).2.count a = 0 :=
        List.count_eq_zero_of_not_mem (fun h => han (hbound a h))
      have h2 : ((List.range snips.length).filter
          (fun i => decide ((kahnRes snips).1.getD i 0 ≠ 0))).count a = 0 := by
        apply List.count_eq_zero_of_not_mem
        rw [List.mem_filter]
        rintro ⟨hm, _⟩
        exact han (List.mem_range.mp hm)
      have h3 : (List.range snips.length).count a = 0 :=
        List.count_eq_zero_of_not_mem (fun h => han (List.mem_range.mp h))
      omega
  · have hkahn1 : (kahn snips).1 = (kahnRes snips).2 := by
      unfold kahn
      rw [if_neg hlt]
    rw [hkahn1]
    have hsub : (kahnRes snips).2 ⊆ List.range snips.length := fun a ha =>
      List.mem_range.mpr (hbound a ha)
    exact (List.subperm_of_subset hnd hsub).perm_of_length_le
      (by rw [List.length_range]; omega)

/-- C3: the topological-sort-based evaluation of custom equations always
terminates with every snippet position occurring exactly once in the
evaluation order (a permutation of the positions), cyclic or not; on the
mutual dependency A -> B -> A, the Kahn queue never fires, the cyclic
diagnostic is raised and both snippets are still evaluated, in their
original relative order. -/
theorem C3_cyclic_dependency_handling :
    (∀ snips : List SnippetData,
        List.Perm (kahn snips).1 (List.range snips.length))
    ∧ kahn [⟨"A", "B", []⟩, ⟨"B", "A", []⟩] = ([0, 1], true) :=
  ⟨kahn_perm, by decide⟩

end PlotJuggler
